import Mathlib

/-!
Verification of the polyline-simplification module (`geometry.py`):
`Point`, the geometric primitives `normal_intercept` / `deviation`, and
`PolyLine` with its recursive Ramer-Douglas-Peucker `approximate`.

Modelling conventions:
* Coordinates are exact rationals (`ℚ`); the Python floats are idealised
  to exact arithmetic, as the specification allows ("up to floating-point
  rounding").
* The source's `deviation` returns `math.sqrt(dx*dx + dy*dy)`.  The
  algorithm only ever uses deviations in order comparisons
  (`dev > maxdev`, `maxdev < tolerance`), and `Real.sqrt` is strictly
  monotone on nonnegatives, so the executable embedding tracks the
  *square* of each deviation (`devSq`) and compares squares; the
  justification lemmas `sqrt_lt_sqrt_iff_of_sq` and `sqrt_lt_tol_iff`
  below prove that the comparisons agree with the source's comparisons
  on square roots.  `deviation` itself is defined as the real square
  root of `devSq` and is used in specification statements.
* Python's unbounded recursion is modelled with an explicit `fuel`
  argument: a run of `_dp_simplify` that never reaches its base case
  returns `DpErr.outOfFuel` for every fuel value, while a terminating
  run returns its result for every sufficiently large fuel.
* Python's `IndexError` (list indexing out of range) is modelled by
  `DpErr.indexErr`; `pyGet` reproduces Python indexing including
  negative indices counting from the end (`points[-1]`).
-/

/-- `Point` from the source: a pair of coordinates, equality is
componentwise exact equality (`__eq__`). -/
structure Point where
  x : ℚ
  y : ℚ
deriving DecidableEq, Repr

/-- `normal_intercept(p1, p2, p)` from the source, translated clause by
clause: vertical special case first (`p2.x == p1.x`), then horizontal
(`p2.y == p1.y`), then the general slope/intercept algebra. -/
def normal_intercept (p1 p2 p : Point) : Point :=
  if p2.x = p1.x then
    ⟨p1.x, p.y⟩
  else if p2.y = p1.y then
    ⟨p.x, p1.y⟩
  else
    let seg_slope := (p2.y - p1.y) / (p2.x - p1.x)
    let normal_slope := 0 - (1 / seg_slope)
    let seg_b := p1.y - seg_slope * p1.x
    let normal_b := p.y - normal_slope * p.x
    let x_intersect := (seg_b - normal_b) / (normal_slope - seg_slope)
    let y_intersect := seg_slope * x_intersect + seg_b
    ⟨x_intersect, y_intersect⟩

/-- The square of the source's `deviation(p1, p2, p)`:
`dx*dx + dy*dy` for `dx`, `dy` the offsets from the normal intercept
(the source returns `math.sqrt` of this). -/
def devSq (p1 p2 p : Point) : ℚ :=
  let intercept := normal_intercept p1 p2 p
  let dx := intercept.x - p.x
  let dy := intercept.y - p.y
  dx * dx + dy * dy

/-- `deviation(p1, p2, p)` from the source: the Euclidean distance from
`p` to `normal_intercept(p1, p2, p)`, i.e. `sqrt(dx*dx + dy*dy)`. -/
noncomputable def deviation (p1 p2 p : Point) : ℝ :=
  Real.sqrt (devSq p1 p2 p)

/-- Python list indexing `l[i]`: nonnegative indices from the front,
negative indices count from the end (`l[-1]` is the last element);
out-of-range indexing fails (`IndexError`), modelled by `none`. -/
def pyGet (l : List Point) (i : ℤ) : Option Point :=
  if 0 ≤ i then l.get? i.toNat
  else if 0 ≤ (l.length : ℤ) + i then l.get? ((l.length : ℤ) + i).toNat
  else none

/-- Python `range(a, b)` as a list of integers. -/
def intRange (a b : ℤ) : List ℤ :=
  (List.range (b - a).toNat).map (fun k : ℕ => a + (k : ℤ))

/-- Failure modes of the embedded recursion: `indexErr` models a Python
`IndexError`; `outOfFuel` marks runs whose recursion exceeds the given
stack budget (a run that is `outOfFuel` for every fuel never reaches
its base case, i.e. the Python original does not terminate). -/
inductive DpErr where
  | indexErr
  | outOfFuel
deriving DecidableEq, Repr

/-- The interior scan of `_dp_simplify` (lines 102-108 of the source):
starting from `maxdev = 0`, `maxindex = 0`, fold over the interior
indices; a strictly larger deviation replaces the running maximum
(`if dev > maxdev`), ties keep the earlier index.  Deviations are
compared via their squares (see the header comment). -/
def scanDev (pts : List Point) (pF pT : Point) :
    List ℤ → ℚ × ℤ → Except DpErr (ℚ × ℤ)
  | [], acc => .ok acc
  | i :: rest, acc =>
    match pyGet pts i with
    | none => .error .indexErr
    | some p =>
      let dSq := devSq pF pT p
      if acc.1 < dSq then scanDev pts pF pT rest (dSq, i)
      else scanDev pts pF pT rest acc

/-- `PolyLine._dp_simplify` from the source, with `pts = self._points`.
Instead of mutating a shared accumulator it returns the list of points
this call appends (in the same left-to-right order; the caller
concatenates left results before right results, matching the source's
append order).  `fuel` bounds the recursion depth. -/
def dp_simplify (pts : List Point) (tol : ℚ) :
    ℕ → ℤ → ℤ → Except DpErr (List Point)
  | 0, _, _ => .error .outOfFuel
  | fuel + 1, fromIdx, toIdx =>
    if toIdx - fromIdx < 2 then
      match pyGet pts fromIdx with
      | none => .error .indexErr
      | some p => .ok [p]
    else
      match pyGet pts fromIdx, pyGet pts toIdx with
      | some pF, some pT =>
        match scanDev pts pF pT (intRange (fromIdx + 1) toIdx) (0, 0) with
        | .error e => .error e
        | .ok (maxdevSq, maxindex) =>
          -- source: `if maxdev < tolerance`; via squares this is
          -- `0 < tol ∧ maxdevSq < tol * tol` (see `sqrt_lt_tol_iff`)
          if 0 < tol ∧ maxdevSq < tol * tol then
            .ok [pF]
          else
            match dp_simplify pts tol fuel fromIdx maxindex with
            | .error e => .error e
            | .ok outL =>
              match dp_simplify pts tol fuel maxindex toIdx with
              | .error e => .error e
              | .ok outR => .ok (outL ++ outR)
      | _, _ => .error .indexErr

/-- `PolyLine.approximate` on the underlying point list: run
`_dp_simplify` over the full index range `[0, len - 1]`, then append
the last point `self._points[-1]`. -/
def approximate (pts : List Point) (tol : ℚ) (fuel : ℕ) :
    Except DpErr (List Point) :=
  match dp_simplify pts tol fuel 0 ((pts.length : ℤ) - 1) with
  | .error e => .error e
  | .ok out =>
    match pyGet pts (-1) with
    | none => .error .indexErr
    | some lastP => .ok (out ++ [lastP])

/-- The options payload passed to a listener's `notify` (a mapping from
names to coordinate pairs, as in the events documented by the module). -/
abbrev EventOptions := List (String × (ℚ × ℚ))

/-- A registered listener, represented by the log of `(event_name,
options)` notifications it has received so far. -/
abbrev ListenerLog := List (String × EventOptions)

/-- `PolyLine` from the source: the private point list `_points` and
the registered listeners `_listeners` (each modelled by its received
notification log). -/
structure PolyLine where
  _listeners : List ListenerLog
  _points : List Point
deriving DecidableEq, Repr

/-- `PolyLine()` — created empty. -/
def PolyLine.empty : PolyLine := ⟨[], []⟩

/-- `PolyLine.append`. -/
def PolyLine.append (L : PolyLine) (p : Point) : PolyLine :=
  { L with _points := L._points ++ [p] }

/-- `PolyLine.add_listener`: appends a listener to `_listeners`. -/
def PolyLine.add_listener (L : PolyLine) (log : ListenerLog) : PolyLine :=
  { L with _listeners := L._listeners ++ [log] }

/-- `PolyLine.notify_all`: synchronously delivers the event to every
registered listener in registration order. -/
def PolyLine.notify_all (L : PolyLine) (event : String)
    (options : EventOptions) : PolyLine :=
  { L with _listeners := L._listeners.map (fun log => log ++ [(event, options)]) }

/-- Total number of events with the given name received by the
listeners of `L`. -/
def PolyLine.eventCount (L : PolyLine) (name : String) : ℕ :=
  (L._listeners.map (fun log => (log.filter (fun e => e.1 = name)).length)).sum

/-- `PolyLine.approximate` as a method: returns the state of `self`
after the call together with the freshly constructed result polyline.
The source reads `self._points` and appends only to the new `approx`
object, so `self` is returned unchanged; `approx` starts as
`PolyLine()` (no listeners) and receives the simplified points.
`_dp_simplify` contains no `notify_all` call in the source, so no
listener log changes. -/
def PolyLine.approximate (L : PolyLine) (tol : ℚ) (fuel : ℕ) :
    Except DpErr (PolyLine × PolyLine) :=
  match dp_simplify L._points tol fuel 0 ((L._points.length : ℤ) - 1) with
  | .error e => .error e
  | .ok out =>
    match pyGet L._points (-1) with
    | none => .error .indexErr
    | some lastP => .ok (L, ⟨[], out ++ [lastP]⟩)

/-- `PolyLine.__eq__` from the source:
`if self._points == other: return True` (and nothing else, so the
mismatch branch returns `None` implicitly).  In Python,
`self._points == other` with `other` a `PolyLine` first tries
`list.__eq__`, which returns `NotImplemented`, and then the reflected
`PolyLine.__eq__(other, self._points)`, whose own condition is the
list-list comparison `other._points == self._points`; that call
returns `True` (truthy) exactly when the point lists are equal and
`None` (falsy) otherwise.  Hence the method returns `some true` when
the point sequences match and `none` otherwise — never `some false`. -/
def PolyLine.eqPy (self other : PolyLine) : Option Bool :=
  if other._points = self._points then some true else none


/-! ### Justification lemmas for the squared-deviation comparisons -/

/-- `devSq` is a sum of two squares, hence nonnegative. -/
lemma devSq_nonneg (p1 p2 p : Point) : 0 ≤ devSq p1 p2 p := by
  unfold devSq
  dsimp only
  exact add_nonneg (mul_self_nonneg _) (mul_self_nonneg _)

/-- The source's running comparison `dev > maxdev` agrees with the
embedded comparison on squares: for nonnegative radicands,
`sqrt a < sqrt b ↔ a < b`. -/
lemma sqrt_lt_sqrt_iff_of_sq (a b : ℚ) (ha : 0 ≤ a) :
    Real.sqrt (a : ℝ) < Real.sqrt (b : ℝ) ↔ a < b := by
  rw [Real.sqrt_lt_sqrt_iff (by exact_mod_cast ha)]
  exact_mod_cast Iff.rfl

/-- The source's test `maxdev < tolerance` agrees with the embedded
test `0 < tol ∧ maxdevSq < tol * tol`. -/
lemma sqrt_lt_tol_iff (a tol : ℚ) :
    Real.sqrt (a : ℝ) < (tol : ℝ) ↔ (0 < tol ∧ a < tol * tol) := by
  constructor
  · intro h
    have htol : (0 : ℝ) < (tol : ℝ) :=
      lt_of_le_of_lt (Real.sqrt_nonneg _) h
    have htolq : (0 : ℚ) < tol := by exact_mod_cast htol
    refine ⟨htolq, ?_⟩
    have h2 := (Real.sqrt_lt' htol).mp h
    have h3 : (a : ℝ) < (tol : ℝ) * (tol : ℝ) := by
      rw [← sq]; exact h2
    exact_mod_cast h3
  · rintro ⟨htol, hlt⟩
    have htolR : (0 : ℝ) < (tol : ℝ) := by exact_mod_cast htol
    rw [Real.sqrt_lt' htolR]
    have h3 : (a : ℝ) < (tol : ℝ) * (tol : ℝ) := by exact_mod_cast hlt
    rw [sq]; exact h3

/-! ### Concrete inputs used by the counterexample theorems -/

/-- Three collinear points: `[(0,0), (1,0), (2,0)]`. -/
def collinear3 : List Point := [⟨0, 0⟩, ⟨1, 0⟩, ⟨2, 0⟩]

/-- A seven-point polyline on which `approximate(0)` terminates but
produces an out-of-order, duplicated output (the interior range
`[3, 5]` is collinear, so its scan leaves `maxindex = 0` and the
recursion restarts at index 0). -/
def badL : List Point :=
  [⟨0, 1⟩, ⟨1/2, 1/2⟩, ⟨1, 1/2⟩, ⟨2, 0⟩, ⟨1, 0⟩, ⟨4, 0⟩, ⟨10, 1⟩]

/-- What `approximate badL 0` actually returns: eleven points, with the
prefix `p0, p1, p2, p3` emitted twice. -/
def badOut : List Point :=
  [⟨0, 1⟩, ⟨1/2, 1/2⟩, ⟨1, 1/2⟩, ⟨2, 0⟩,
   ⟨0, 1⟩, ⟨1/2, 1/2⟩, ⟨1, 1/2⟩, ⟨2, 0⟩, ⟨1, 0⟩, ⟨4, 0⟩, ⟨10, 1⟩]

/-- What `approximate badOut 0` returns: nineteen points. -/
def badOut2 : List Point :=
  [⟨0, 1⟩, ⟨1/2, 1/2⟩, ⟨1, 1/2⟩, ⟨2, 0⟩,
   ⟨0, 1⟩, ⟨1/2, 1/2⟩, ⟨1, 1/2⟩, ⟨2, 0⟩,
   ⟨0, 1⟩, ⟨1/2, 1/2⟩, ⟨1, 1/2⟩, ⟨2, 0⟩,
   ⟨0, 1⟩, ⟨1/2, 1/2⟩, ⟨1, 1/2⟩, ⟨2, 0⟩, ⟨1, 0⟩, ⟨4, 0⟩, ⟨10, 1⟩]

/-- C2: the claim that `approximate` always returns a strictly
increasing-index subsequence of the input fails on the code: on `badL`
with tolerance `0`, the returned polyline has eleven points — four of
the seven input points are emitted twice, out of path order — so the
result is not a subsequence of the input. -/
theorem C2_result_not_a_subsequence :
    approximate badL 0 20 = Except.ok badOut ∧ ¬ List.Sublist badOut badL := by
  constructor
  · with_unfolding_all rfl
  · intro h
    have hlen := h.length_le
    simp [badOut, badL] at hlen

/-- C3: the claim that the recursion always reaches its base case fails
on the code: on three collinear points with tolerance `0`, the interior
scan leaves `maxindex = 0`, and `_dp_simplify(0, 2)` recurses into
`_dp_simplify(0, 0)` and `_dp_simplify(0, 2)` again — for every stack
budget the run is still out of fuel, i.e. the recursion never reaches
its base case and `approximate` never returns. -/
theorem C3_dp_simplify_nonterminating :
    (∀ fuel, dp_simplify collinear3 0 fuel 0 2 = Except.error DpErr.outOfFuel) ∧
    (∀ fuel, approximate collinear3 0 fuel = Except.error DpErr.outOfFuel) := by
  have hdp : ∀ fuel, dp_simplify collinear3 0 fuel 0 2 = Except.error DpErr.outOfFuel := by
    intro fuel
    induction fuel with
    | zero => rfl
    | succ n ih =>
      cases n with
      | zero => with_unfolding_all rfl
      | succ m =>
        have hstep : dp_simplify collinear3 0 (m + 1 + 1) 0 2 =
            (match dp_simplify collinear3 0 (m + 1) 0 0 with
             | Except.error e => Except.error e
             | Except.ok outL =>
               match dp_simplify collinear3 0 (m + 1) 0 2 with
               | Except.error e => Except.error e
               | Except.ok outR => Except.ok (outL ++ outR)) := by
          with_unfolding_all rfl
        have hleft : dp_simplify collinear3 0 (m + 1) 0 0 =
            Except.ok [⟨0, 0⟩] := by
          with_unfolding_all rfl
        rw [hstep, hleft, ih]
  refine ⟨hdp, fun fuel => ?_⟩
  show (match dp_simplify collinear3 0 fuel 0 ((collinear3.length : ℤ) - 1) with
    | Except.error e => Except.error e
    | Except.ok out =>
      match pyGet collinear3 (-1) with
      | none => Except.error DpErr.indexErr
      | some lastP => Except.ok (out ++ [lastP])) = Except.error DpErr.outOfFuel
  have h3 : ((collinear3.length : ℤ) - 1) = 2 := by rfl
  rw [h3, hdp fuel]

/-- The observer scenario from the specification: the polyline
`[(0,0), (1,0.1), (2,-0.1), (3,0)]` with one registered listener
(with an empty received log). -/
def scenarioL : PolyLine :=
  ⟨[[]], [⟨0, 0⟩, ⟨1, 1/10⟩, ⟨2, -1/10⟩, ⟨3, 0⟩]⟩

/-- C4: the claim that flat subranges synchronously emit
`final_approx_seg` (and refinements emit `trial_approx`) fails on the
code: `_dp_simplify` contains no call to `notify_all`, so on the
specification's own scenario (`tolerance = 1`, one registered
observer) the simplification succeeds with result `[(0,0), (3,0)]`
while the observer receives zero `final_approx_seg` events (the claim
requires exactly one) and zero `trial_approx` events. -/
theorem C4_no_events_are_emitted :
    PolyLine.approximate scenarioL 1 10 =
      Except.ok (scenarioL, ⟨[], [⟨0, 0⟩, ⟨3, 0⟩]⟩) ∧
    scenarioL.eventCount "final_approx_seg" = 0 ∧
    scenarioL.eventCount "trial_approx" = 0 := by
  refine ⟨by with_unfolding_all rfl, rfl, rfl⟩

/-- C5: calling `approximate` on an empty polyline never returns a
result: it fails, raising the index error produced by accessing
`self._points[0]` in the base case of `_dp_simplify` (for any positive
stack budget; with no budget it is classified out-of-fuel, still not a
result). -/
theorem C5_empty_polyline_fails :
    ∀ (ls : List ListenerLog) (tol : ℚ) (fuel : ℕ),
      (∀ r, (PolyLine.mk ls []).approximate tol fuel ≠ Except.ok r) ∧
      (1 ≤ fuel → (PolyLine.mk ls []).approximate tol fuel =
        Except.error DpErr.indexErr) := by
  intro ls tol fuel
  cases fuel with
  | zero =>
    have h0 : (PolyLine.mk ls []).approximate tol 0 =
        Except.error DpErr.outOfFuel := rfl
    exact ⟨fun r hr => absurd (h0 ▸ hr) (fun hc => by cases hc),
      fun hf => absurd hf (by omega)⟩
  | succ n =>
    have h1 : (PolyLine.mk ls []).approximate tol (n + 1) =
        Except.error DpErr.indexErr := rfl
    exact ⟨fun r hr => absurd (h1 ▸ hr) (fun hc => by cases hc),
      fun _ => h1⟩

/-- Witness for C5 at a concrete empty polyline. -/
theorem C5_empty_polyline_fails_witness :
    (PolyLine.mk [] []).approximate 0 1 = Except.error DpErr.indexErr :=
  (C5_empty_polyline_fails [] 0 1).2 (by omega)

/-- C6: the idempotence claim fails on the code: on `badL` with
tolerance `0` (a nonnegative tolerance), `approximate` returns the
eleven-point `badOut`, but re-simplifying `badOut` at the same
tolerance returns the nineteen-point `badOut2`, a different point
sequence. -/
theorem C6_not_idempotent :
    approximate badL 0 20 = Except.ok badOut ∧
    approximate badOut 0 40 = Except.ok badOut2 ∧
    badOut2 ≠ badOut := by
  refine ⟨by with_unfolding_all rfl, by with_unfolding_all rfl, ?_⟩
  intro h
  have hlen : badOut2.length = badOut.length := by rw [h]
  simp [badOut2, badOut] at hlen

/-- C8: `normal_intercept` checks its special cases in the mandatory
priority order: the vertical branch `p1.x == p2.x` first (which also
captures the degenerate case `p1 == p2`), then the horizontal branch
`p1.y == p2.y`; on the specification's example, the intercept of
`p1=(2,0)`, `p2=(2,10)`, `p=(5,4)` is `(2,4)` and the perpendicular
distance is `3`. -/
theorem C8_normal_intercept_branch_order :
    (∀ p1 p2 p : Point, p1.x = p2.x →
      normal_intercept p1 p2 p = ⟨p1.x, p.y⟩) ∧
    (∀ p1 p : Point, normal_intercept p1 p1 p = ⟨p1.x, p.y⟩) ∧
    (∀ p1 p2 p : Point, p1.x ≠ p2.x → p1.y = p2.y →
      normal_intercept p1 p2 p = ⟨p.x, p1.y⟩) ∧
    normal_intercept ⟨2, 0⟩ ⟨2, 10⟩ ⟨5, 4⟩ = ⟨2, 4⟩ ∧
    deviation ⟨2, 0⟩ ⟨2, 10⟩ ⟨5, 4⟩ = 3 := by
  have h1 : ∀ p1 p2 p : Point, p1.x = p2.x →
      normal_intercept p1 p2 p = ⟨p1.x, p.y⟩ := by
    intro p1 p2 p h
    unfold normal_intercept
    rw [if_pos h.symm]
  refine ⟨h1, fun p1 p => h1 p1 p1 p rfl, ?_, by with_unfolding_all rfl, ?_⟩
  · intro p1 p2 p hx hy
    unfold normal_intercept
    rw [if_neg (fun hc => hx hc.symm), if_pos hy.symm]
  · unfold deviation
    rw [show ((devSq ⟨2, 0⟩ ⟨2, 10⟩ ⟨5, 4⟩ : ℚ) : ℝ) = 9 by
      rw [show (devSq ⟨2, 0⟩ ⟨2, 10⟩ ⟨5, 4⟩ : ℚ) = 9 by with_unfolding_all rfl]
      norm_num]
    rw [show (9 : ℝ) = 3 ^ 2 by norm_num, Real.sqrt_sq (by norm_num : (0:ℝ) ≤ 3)]

/-- Witness for C8 on the specification's horizontal-segment scenario:
`p1=(0,3)`, `p2=(10,3)`, `p=(4,7)` gives intercept `(4,3)`. -/
theorem C8_normal_intercept_branch_order_witness :
    normal_intercept ⟨0, 3⟩ ⟨10, 3⟩ ⟨4, 7⟩ = ⟨4, 3⟩ :=
  C8_normal_intercept_branch_order.2.2.1 ⟨0, 3⟩ ⟨10, 3⟩ ⟨4, 7⟩
    (by norm_num) rfl

/-- C9: `approximate` never mutates the polyline it is called on: the
returned `self` state is the original (same `_points`, same
`_listeners`), and the result is a fresh polyline with no listeners. -/
theorem C9_approximate_does_not_mutate :
    ∀ (L : PolyLine) (tol : ℚ) (fuel : ℕ) (self' res : PolyLine),
      L.approximate tol fuel = Except.ok (self', res) →
      self' = L ∧ self'._points = L._points ∧
      self'._listeners = L._listeners ∧ res._listeners = [] := by
  intro L tol fuel self' res h
  unfold PolyLine.approximate at h
  split at h
  · cases h
  · split at h
    · cases h
    · rw [Except.ok.injEq, Prod.mk.injEq] at h
      obtain ⟨h1, h2⟩ := h
      subst h1
      subst h2
      exact ⟨rfl, rfl, rfl, rfl⟩

/-- Witness for C9 at a concrete one-point polyline with one listener. -/
theorem C9_approximate_does_not_mutate_witness :
    PolyLine.mk [[]] [⟨0, 0⟩] = PolyLine.mk [[]] [⟨0, 0⟩] ∧
    (PolyLine.mk [[]] [⟨0, 0⟩])._points = (PolyLine.mk [[]] [⟨0, 0⟩])._points ∧
    (PolyLine.mk [[]] [⟨0, 0⟩])._listeners =
      (PolyLine.mk [[]] [⟨0, 0⟩])._listeners ∧
    (PolyLine.mk ([] : List ListenerLog) [⟨0, 0⟩, ⟨0, 0⟩])._listeners = [] :=
  C9_approximate_does_not_mutate (PolyLine.mk [[]] [⟨0, 0⟩]) 0 1
    (PolyLine.mk [[]] [⟨0, 0⟩]) (PolyLine.mk [] [⟨0, 0⟩, ⟨0, 0⟩])
    (by with_unfolding_all rfl)

/-- C10: `PolyLine.__eq__` is degenerate exactly as claimed: it
returns `True` when the point sequences match, returns `None`
implicitly (not `False`) when they do not, and never returns
`False`. -/
theorem C10_eq_never_returns_false :
    ∀ a b : PolyLine,
      (a._points = b._points → a.eqPy b = some true) ∧
      (a._points ≠ b._points → a.eqPy b = none) ∧
      (∀ x, a.eqPy b = some x → x = true) := by
  intro a b
  refine ⟨fun h => ?_, fun h => ?_, fun x hx => ?_⟩
  · unfold PolyLine.eqPy
    rw [if_pos h.symm]
  · unfold PolyLine.eqPy
    rw [if_neg (fun hc => h hc.symm)]
  · unfold PolyLine.eqPy at hx
    by_cases h : b._points = a._points
    · rw [if_pos h] at hx
      cases hx
      rfl
    · rw [if_neg h] at hx
      cases hx

/-- Witness for C10 at two concrete polylines with different points. -/
theorem C10_eq_never_returns_false_witness :
    (PolyLine.mk [] [⟨0, 0⟩]).eqPy (PolyLine.mk [] []) = none :=
  (C10_eq_never_returns_false (PolyLine.mk [] [⟨0, 0⟩])
    (PolyLine.mk [] [])).2.1 (by simp)

/-! ### Helper lemmas about successful runs of the recursion -/

/-- A successful `_dp_simplify` call appends at least one point (every
leaf of the recursion appends the point at its `from` index). -/
lemma dp_ok_ne_nil :
    ∀ (fuel : ℕ) (pts : List Point) (tol : ℚ) (f t : ℤ) (out : List Point),
      dp_simplify pts tol fuel f t = Except.ok out → out ≠ [] := by
  intro fuel
  induction fuel with
  | zero => intro pts tol f t out h; cases h
  | succ n ih =>
    intro pts tol f t out h
    simp only [dp_simplify] at h
    split at h
    · split at h
      · cases h
      · cases h; simp
    · split at h
      · split at h
        · cases h
        · split at h
          · cases h; simp
          · split at h
            · cases h
            · next outL hL =>
              split at h
              · cases h
              · next outR hR =>
                cases h
                have hnl := ih pts tol f _ outL hL
                simp [hnl]
      · cases h

/-- The flatness test is monotone in the tolerance: a subrange flat for
`t1` is flat for any larger `t2`. -/
lemma flat_mono {t1 t2 q : ℚ} (hle : t1 ≤ t2) (h : 0 < t1 ∧ q < t1 * t1) :
    0 < t2 ∧ q < t2 * t2 :=
  ⟨lt_of_lt_of_le h.1 hle,
   lt_of_lt_of_le h.2 (mul_le_mul hle hle h.1.le (h.1.le.trans hle))⟩

/-- Core of tolerance monotonicity: the interior scan (hence the split
index) does not depend on the tolerance, and the only divergence
between two runs at `t1 ≤ t2` is that the `t2` run may stop early with
a single point where the `t1` run recurses further — so the `t1` run
returns at least as many points. -/
lemma dp_length_mono :
    ∀ (fuel2 fuel1 : ℕ) (pts : List Point) (t1 t2 : ℚ) (f t : ℤ)
      (l1 l2 : List Point),
      t1 ≤ t2 →
      dp_simplify pts t1 fuel1 f t = Except.ok l1 →
      dp_simplify pts t2 fuel2 f t = Except.ok l2 →
      l2.length ≤ l1.length := by
  intro fuel2
  induction fuel2 with
  | zero => intro fuel1 pts t1 t2 f t l1 l2 _ _ h2; cases h2
  | succ n ih =>
    intro fuel1 pts t1 t2 f t l1 l2 hle h1 h2
    cases fuel1 with
    | zero => cases h1
    | succ m =>
      cases hg : pyGet pts f with
      | none =>
        by_cases hbase : t - f < 2
        · simp only [dp_simplify, if_pos hbase, hg] at h1
          exact (Except.noConfusion h1)
        · cases hgt : pyGet pts t with
          | none =>
            simp only [dp_simplify, if_neg hbase, hg, hgt] at h1
            exact (Except.noConfusion h1)
          | some pT =>
            simp only [dp_simplify, if_neg hbase, hg, hgt] at h1
            exact (Except.noConfusion h1)
      | some pF =>
        by_cases hbase : t - f < 2
        · simp only [dp_simplify, if_pos hbase, hg, Except.ok.injEq] at h1 h2
          subst h1
          subst h2
          exact le_refl _
        · cases hgt : pyGet pts t with
          | none =>
            simp only [dp_simplify, if_neg hbase, hg, hgt] at h1
            exact (Except.noConfusion h1)
          | some pT =>
            cases hs : scanDev pts pF pT (intRange (f + 1) t) (0, 0) with
            | error e =>
              simp only [dp_simplify, if_neg hbase, hg, hgt, hs] at h1
              exact (Except.noConfusion h1)
            | ok q =>
              obtain ⟨mq, mi⟩ := q
              simp only [dp_simplify, if_neg hbase, hg, hgt, hs] at h1 h2
              by_cases hflat1 : 0 < t1 ∧ mq < t1 * t1
              · have hflat2 := flat_mono hle hflat1
                rw [if_pos hflat1] at h1
                rw [if_pos hflat2] at h2
                simp only [Except.ok.injEq] at h1 h2
                subst h1
                subst h2
                exact le_refl _
              · rw [if_neg hflat1] at h1
                by_cases hflat2 : 0 < t2 ∧ mq < t2 * t2
                · rw [if_pos hflat2] at h2
                  simp only [Except.ok.injEq] at h2
                  subst h2
                  cases hL : dp_simplify pts t1 m f mi with
                  | error e =>
                    simp only [hL] at h1
                    exact (Except.noConfusion h1)
                  | ok outL =>
                    cases hR : dp_simplify pts t1 m mi t with
                    | error e =>
                      simp only [hL, hR] at h1
                      exact (Except.noConfusion h1)
                    | ok outR =>
                      simp only [hL, hR, Except.ok.injEq] at h1
                      subst h1
                      have hnl := dp_ok_ne_nil m pts t1 f mi outL hL
                      have hpos : 0 < outL.length := List.length_pos.mpr hnl
                      simp only [List.length_append, List.length_singleton]
                      omega
                · rw [if_neg hflat2] at h2
                  cases hL1 : dp_simplify pts t1 m f mi with
                  | error e =>
                    simp only [hL1] at h1
                    exact (Except.noConfusion h1)
                  | ok outL1 =>
                    cases hR1 : dp_simplify pts t1 m mi t with
                    | error e =>
                      simp only [hL1, hR1] at h1
                      exact (Except.noConfusion h1)
                    | ok outR1 =>
                      cases hL2 : dp_simplify pts t2 n f mi with
                      | error e =>
                        simp only [hL2] at h2
                        exact (Except.noConfusion h2)
                      | ok outL2 =>
                        cases hR2 : dp_simplify pts t2 n mi t with
                        | error e =>
                          simp only [hL2, hR2] at h2
                          exact (Except.noConfusion h2)
                        | ok outR2 =>
                          simp only [hL1, hR1, Except.ok.injEq] at h1
                          simp only [hL2, hR2, Except.ok.injEq] at h2
                          subst h1
                          subst h2
                          have i1 := ih m pts t1 t2 f mi outL1 outL2 hle hL1 hL2
                          have i2 := ih m pts t1 t2 mi t outR1 outR2 hle hR1 hR2
                          simp only [List.length_append]
                          omega

/-- C7: tolerance monotonicity.  For `0 ≤ t1 < t2`, whenever both runs
of `approximate` return, the looser tolerance `t2` never produces more
points than `t1`. -/
theorem C7_tolerance_monotonicity :
    ∀ (pts : List Point) (t1 t2 : ℚ) (fuel1 fuel2 : ℕ) (l1 l2 : List Point),
      0 ≤ t1 → t1 < t2 →
      approximate pts t1 fuel1 = Except.ok l1 →
      approximate pts t2 fuel2 = Except.ok l2 →
      l2.length ≤ l1.length := by
  intro pts t1 t2 fuel1 fuel2 l1 l2 ht1 hlt h1 h2
  cases hd1 : dp_simplify pts t1 fuel1 0 ((pts.length : ℤ) - 1) with
  | error e =>
    simp only [approximate, hd1] at h1
    exact (Except.noConfusion h1)
  | ok out1 =>
    cases hd2 : dp_simplify pts t2 fuel2 0 ((pts.length : ℤ) - 1) with
    | error e =>
      simp only [approximate, hd2] at h2
      exact (Except.noConfusion h2)
    | ok out2 =>
      cases hlast : pyGet pts (-1) with
      | none =>
        simp only [approximate, hd1, hlast] at h1
        exact (Except.noConfusion h1)
      | some lastP =>
        simp only [approximate, hd1, hd2, hlast, Except.ok.injEq] at h1 h2
        subst h1
        subst h2
        have hmono := dp_length_mono fuel2 fuel1 pts t1 t2 0
          ((pts.length : ℤ) - 1) out1 out2 hlt.le hd1 hd2
        simp only [List.length_append]
        omega

/-- Witness for C7: on `[(0,0), (1,5), (2,0)]` with `t1 = 1/2` and
`t2 = 6`, the results have 3 and 2 points respectively. -/
theorem C7_tolerance_monotonicity_witness :
    ([⟨0, 0⟩, ⟨2, 0⟩] : List Point).length ≤
      ([⟨0, 0⟩, ⟨1, 5⟩, ⟨2, 0⟩] : List Point).length :=
  C7_tolerance_monotonicity [⟨0, 0⟩, ⟨1, 5⟩, ⟨2, 0⟩] (1/2) 6 5 5
    [⟨0, 0⟩, ⟨1, 5⟩, ⟨2, 0⟩] [⟨0, 0⟩, ⟨2, 0⟩]
    (by norm_num) (by norm_num)
    (by with_unfolding_all rfl) (by with_unfolding_all rfl)

/-! ### The deviation-bound invariant (claim C1) -/

/-- Membership in the embedded Python `range(a, b)`. -/
lemma mem_intRange {a b i : ℤ} : i ∈ intRange a b ↔ a ≤ i ∧ i < b := by
  unfold intRange
  constructor
  · intro h
    obtain ⟨k, hk, hki⟩ := List.mem_map.mp h
    have hk' := List.mem_range.mp hk
    omega
  · intro h
    apply List.mem_map.mpr
    exact ⟨(i - a).toNat, List.mem_range.mpr (by omega), by omega⟩

/-- The deviation of the segment's own first endpoint is zero: in every
branch of `normal_intercept`, the intercept for `p = p1` is `p1`
itself. -/
lemma devSq_left (p1 p2 : Point) : devSq p1 p2 p1 = 0 := by
  unfold devSq normal_intercept
  by_cases h1 : p2.x = p1.x
  · rw [if_pos h1]
    simp
  · rw [if_neg h1]
    by_cases h2 : p2.y = p1.y
    · rw [if_pos h2]
      simp
    · rw [if_neg h2]
      dsimp only
      set s := (p2.y - p1.y) / (p2.x - p1.x) with hs
      have hx12 : p2.x - p1.x ≠ 0 := sub_ne_zero.mpr h1
      have hy12 : p2.y - p1.y ≠ 0 := sub_ne_zero.mpr h2
      have hsne : s ≠ 0 := div_ne_zero hy12 hx12
      have hns : (0 - 1 / s) - s ≠ 0 := by
        intro hc
        have h1s : 1 / s = -s := by linarith
        have h2s : (1 : ℚ) = -s * s := by
          field_simp at h1s
          linarith
        nlinarith [mul_self_nonneg s]
      have hxint : (p1.y - s * p1.x - (p1.y - (0 - 1 / s) * p1.x)) /
          ((0 - 1 / s) - s) = p1.x := by
        rw [div_eq_iff hns]
        ring
      rw [hxint]
      ring

/-- The deviation of the segment's own second endpoint is zero. -/
lemma devSq_right (p1 p2 : Point) : devSq p1 p2 p2 = 0 := by
  unfold devSq normal_intercept
  by_cases h1 : p2.x = p1.x
  · rw [if_pos h1]
    simp [h1]
  · rw [if_neg h1]
    by_cases h2 : p2.y = p1.y
    · rw [if_pos h2]
      simp [h2]
    · rw [if_neg h2]
      dsimp only
      set s := (p2.y - p1.y) / (p2.x - p1.x) with hs
      have hx12 : p2.x - p1.x ≠ 0 := sub_ne_zero.mpr h1
      have hy12 : p2.y - p1.y ≠ 0 := sub_ne_zero.mpr h2
      have hsne : s ≠ 0 := div_ne_zero hy12 hx12
      have hns : (0 - 1 / s) - s ≠ 0 := by
        intro hc
        have h1s : 1 / s = -s := by linarith
        have h2s : (1 : ℚ) = -s * s := by
          field_simp at h1s
          linarith
        nlinarith [mul_self_nonneg s]
      have hsrel : s * (p2.x - p1.x) = p2.y - p1.y := by
        rw [hs, div_mul_cancel₀ _ hx12]
      have hp2y : p2.y = p1.y + s * (p2.x - p1.x) := by linarith
      have hxint : (p1.y - s * p1.x - (p2.y - (0 - 1 / s) * p2.x)) /
          ((0 - 1 / s) - s) = p2.x := by
        rw [div_eq_iff hns, hp2y]
        ring
      rw [hxint]
      have hyint : s * p2.x + (p1.y - s * p1.x) = p2.y := by
        rw [hp2y]
        ring
      rw [hyint]
      ring

/-- Invariant of the interior scan: the returned maximum dominates the
accumulator and the (squared) deviation of every scanned interior
point, and the returned index is the accumulator's index or one of the
scanned indices; every scanned index was fetched successfully. -/
lemma scanDev_spec :
    ∀ (idxs : List ℤ) (pts : List Point) (pF pT : Point) (acc : ℚ × ℤ)
      (mq : ℚ) (mi : ℤ),
      scanDev pts pF pT idxs acc = Except.ok (mq, mi) →
      (acc.1 ≤ mq) ∧
      (mi = acc.2 ∨ mi ∈ idxs) ∧
      (∀ i ∈ idxs, ∃ p, pyGet pts i = some p ∧ devSq pF pT p ≤ mq) := by
  intro idxs
  induction idxs with
  | nil =>
    intro pts pF pT acc mq mi h
    simp only [scanDev, Except.ok.injEq] at h
    subst h
    exact ⟨le_refl _, Or.inl rfl, by simp⟩
  | cons i rest ih =>
    intro pts pF pT acc mq mi h
    simp only [scanDev] at h
    cases hg : pyGet pts i with
    | none =>
      simp only [hg] at h
      exact (Except.noConfusion h)
    | some p =>
      simp only [hg] at h
      by_cases hlt : acc.1 < devSq pF pT p
      · rw [if_pos hlt] at h
        obtain ⟨h1, h2, h3⟩ := ih pts pF pT (devSq pF pT p, i) mq mi h
        refine ⟨le_trans hlt.le h1, ?_, ?_⟩
        · rcases h2 with he | hm
          · exact Or.inr (by simp [he])
          · exact Or.inr (List.mem_cons_of_mem _ hm)
        · intro j hj
          rcases List.mem_cons.mp hj with rfl | hj'
          · exact ⟨p, hg, h1⟩
          · exact h3 j hj'
      · rw [if_neg hlt] at h
        obtain ⟨h1, h2, h3⟩ := ih pts pF pT acc mq mi h
        refine ⟨h1, ?_, ?_⟩
        · rcases h2 with he | hm
          · exact Or.inl he
          · exact Or.inr (List.mem_cons_of_mem _ hm)
        · intro j hj
          rcases List.mem_cons.mp hj with rfl | hj'
          · exact ⟨p, hg, le_trans (not_lt.mp hlt) h1⟩
          · exact h3 j hj'

/-- `covered pts tol out i`: the `i`-th input point lies within
`tol` of the line through some pair of consecutive output points whose
input indices bracket `i` — the per-point statement of the RDP
deviation bound. -/
def covered (pts : List Point) (tol : ℚ) (out : List Point) (i : ℤ) : Prop :=
  ∃ (j : ℕ) (a b : ℤ) (pa pb pc : Point),
    out.get? j = some pa ∧ out.get? (j + 1) = some pb ∧
    pyGet pts a = some pa ∧ pyGet pts b = some pb ∧ pyGet pts i = some pc ∧
    ((a ≤ i ∧ i ≤ b) ∨ (b ≤ i ∧ i ≤ a)) ∧
    deviation pa pb pc ≤ (tol : ℝ)

/-- Coverage is preserved when output points are prepended. -/
lemma covered_prepend (pts : List Point) (tol : ℚ) (pre out : List Point)
    (i : ℤ) (h : covered pts tol out i) : covered pts tol (pre ++ out) i := by
  obtain ⟨j, a, b, pa, pb, pc, h1, h2, h3, h4, h5, h6, h7⟩ := h
  refine ⟨pre.length + j, a, b, pa, pb, pc, ?_, ?_, h3, h4, h5, h6, h7⟩
  · rw [List.get?_append_right (by omega)]
    simpa using h1
  · rw [List.get?_append_right (by omega)]
    have harith : pre.length + j + 1 - pre.length = j + 1 := by omega
    rw [harith]
    exact h2

/-- Coverage by `out1 ++ [q]` is preserved when the final `q` becomes
the head of a longer continuation: all consecutive pairs survive. -/
lemma covered_extend (pts : List Point) (tol : ℚ) (out1 rest : List Point)
    (q : Point) (i : ℤ) (h : covered pts tol (out1 ++ [q]) i) :
    covered pts tol (out1 ++ q :: rest) i := by
  obtain ⟨j, a, b, pa, pb, pc, h1, h2, h3, h4, h5, h6, h7⟩ := h
  have hlen2 : j + 1 < (out1 ++ [q]).length := (List.get?_eq_some.mp h2).1
  rw [List.length_append, List.length_singleton] at hlen2
  have hj1 : j + 1 ≤ out1.length := by omega
  refine ⟨j, a, b, pa, pb, pc, ?_, ?_, h3, h4, h5, h6, h7⟩
  · rw [List.get?_append (by omega)]
    rw [List.get?_append (by omega)] at h1
    exact h1
  · by_cases hcase : j + 1 < out1.length
    · rw [List.get?_append hcase]
      rw [List.get?_append hcase] at h2
      exact h2
    · have hj2 : j + 1 = out1.length := by omega
      rw [List.get?_append_right (by omega), hj2, Nat.sub_self] at h2
      simp only [List.get?] at h2
      rw [List.get?_append_right (by omega), hj2, Nat.sub_self]
      simp only [List.get?]
      exact h2

/-- From a bound on the squared deviation to a bound on the real
deviation. -/
lemma dev_le_tol {pa pb pc : Point} {tol : ℚ}
    (h : devSq pa pb pc ≤ tol * tol) (htol : 0 ≤ tol) :
    deviation pa pb pc ≤ (tol : ℝ) := by
  unfold deviation
  have h1 : ((devSq pa pb pc : ℚ) : ℝ) ≤ ((tol * tol : ℚ) : ℝ) := by
    exact_mod_cast h
  calc Real.sqrt ((devSq pa pb pc : ℚ) : ℝ)
      ≤ Real.sqrt ((tol * tol : ℚ) : ℝ) := Real.sqrt_le_sqrt h1
    _ = (tol : ℝ) := by
        push_cast
        exact Real.sqrt_mul_self (by exact_mod_cast htol)

/-- `deviation p1 p2 p1 ≤ tol` for every nonnegative tolerance. -/
lemma dev_left_le (pF pT : Point) {tol : ℚ} (htol : 0 ≤ tol) :
    deviation pF pT pF ≤ (tol : ℝ) :=
  dev_le_tol (by rw [devSq_left]; exact mul_self_nonneg tol) htol

/-- `deviation p1 p2 p2 ≤ tol` for every nonnegative tolerance. -/
lemma dev_right_le (pF pT : Point) {tol : ℚ} (htol : 0 ≤ tol) :
    deviation pF pT pT ≤ (tol : ℝ) :=
  dev_le_tol (by rw [devSq_right]; exact mul_self_nonneg tol) htol

/-- Main invariant of `_dp_simplify`: a successful call over `[f, t]`
emits the point at `f` first, and — together with the continuation
point `pts[t]` appended by its context — covers every input index
between `f` and `t` within the tolerance.  In the degenerate
`maxindex = 0` branch the right recursion over `[0, t]` still covers
all of `[f, t]` because `0 ≤ f`. -/
lemma dp_spec :
    ∀ (fuel : ℕ) (pts : List Point) (tol : ℚ) (f t : ℤ) (out : List Point),
      dp_simplify pts tol fuel f t = Except.ok out →
      0 ≤ f → 0 ≤ tol →
      (∃ pF, pyGet pts f = some pF ∧ out.head? = some pF) ∧
      (∀ pT, pyGet pts t = some pT →
        ∀ i : ℤ, f ≤ i → i ≤ t → covered pts tol (out ++ [pT]) i) := by
  intro fuel
  induction fuel with
  | zero => intro pts tol f t out h _ _; cases h
  | succ n ih =>
    intro pts tol f t out h hf htol
    cases hg : pyGet pts f with
    | none =>
      by_cases hbase : t - f < 2
      · simp only [dp_simplify, if_pos hbase, hg] at h
        exact (Except.noConfusion h)
      · cases hgt : pyGet pts t with
        | none =>
          simp only [dp_simplify, if_neg hbase, hg, hgt] at h
          exact (Except.noConfusion h)
        | some pT0 =>
          simp only [dp_simplify, if_neg hbase, hg, hgt] at h
          exact (Except.noConfusion h)
    | some pF =>
      by_cases hbase : t - f < 2
      · simp only [dp_simplify, if_pos hbase, hg, Except.ok.injEq] at h
        subst h
        refine ⟨⟨pF, rfl, rfl⟩, ?_⟩
        intro pT hgt' i hfi hit
        have hcases : i = f ∨ i = t := by omega
        rcases hcases with rfl | rfl
        · exact ⟨0, i, t, pF, pT, pF, rfl, rfl, hg, hgt', hg,
            Or.inl ⟨le_refl _, hit⟩, dev_left_le pF pT htol⟩
        · exact ⟨0, f, i, pF, pT, pT, rfl, rfl, hg, hgt', hgt',
            Or.inl ⟨hfi, le_refl _⟩, dev_right_le pF pT htol⟩
      · cases hgt : pyGet pts t with
        | none =>
          simp only [dp_simplify, if_neg hbase, hg, hgt] at h
          exact (Except.noConfusion h)
        | some pT0 =>
          cases hs : scanDev pts pF pT0 (intRange (f + 1) t) (0, 0) with
          | error e =>
            simp only [dp_simplify, if_neg hbase, hg, hgt, hs] at h
            exact (Except.noConfusion h)
          | ok q =>
            obtain ⟨mq, mi⟩ := q
            obtain ⟨hacc, hmi, hbound⟩ :=
              scanDev_spec (intRange (f + 1) t) pts pF pT0 (0, 0) mq mi hs
            simp only [dp_simplify, if_neg hbase, hg, hgt, hs] at h
            by_cases hflat : 0 < tol ∧ mq < tol * tol
            · rw [if_pos hflat] at h
              simp only [Except.ok.injEq] at h
              subst h
              refine ⟨⟨pF, rfl, rfl⟩, ?_⟩
              intro pT hgt' i hfi hit
              obtain rfl : pT0 = pT := Option.some.inj hgt'
              have hcases : i = f ∨ i = t ∨ (f + 1 ≤ i ∧ i < t) := by omega
              rcases hcases with rfl | rfl | hint
              · exact ⟨0, i, t, pF, pT0, pF, rfl, rfl, hg, hgt, hg,
                  Or.inl ⟨le_refl _, hit⟩, dev_left_le pF pT0 htol⟩
              · exact ⟨0, f, i, pF, pT0, pT0, rfl, rfl, hg, hgt, hgt,
                  Or.inl ⟨hfi, le_refl _⟩, dev_right_le pF pT0 htol⟩
              · obtain ⟨p, hp, hple⟩ :=
                  hbound i (mem_intRange.mpr ⟨hint.1, hint.2⟩)
                exact ⟨0, f, t, pF, pT0, p, rfl, rfl, hg, hgt, hp,
                  Or.inl ⟨hfi, hit⟩,
                  dev_le_tol (le_of_lt (lt_of_le_of_lt hple hflat.2)) hflat.1.le⟩
            · rw [if_neg hflat] at h
              cases hL : dp_simplify pts tol n f mi with
              | error e =>
                simp only [hL] at h
                exact (Except.noConfusion h)
              | ok outL =>
                cases hR : dp_simplify pts tol n mi t with
                | error e =>
                  simp only [hL, hR] at h
                  exact (Except.noConfusion h)
                | ok outR =>
                  simp only [hL, hR, Except.ok.injEq] at h
                  subst h
                  have hmi0 : 0 ≤ mi := by
                    rcases hmi with he | hm
                    · have hmi00 : mi = 0 := he
                      omega
                    · have := mem_intRange.mp hm
                      omega
                  obtain ⟨⟨pF', hpF', hheadL⟩, hcovL⟩ :=
                    ih pts tol f mi outL hL hf htol
                  obtain ⟨⟨pM, hpM, hheadR⟩, hcovR⟩ :=
                    ih pts tol mi t outR hR hmi0 htol
                  have hpFeq : pF = pF' := Option.some.inj (hg ▸ hpF')
                  subst hpFeq
                  constructor
                  · refine ⟨pF, rfl, ?_⟩
                    cases outL with
                    | nil => cases hheadL
                    | cons x xs =>
                      simpa using hheadL
                  · intro pT hgt' i hfi hit
                    obtain rfl : pT0 = pT := Option.some.inj hgt'
                    by_cases hcase : i ≤ mi
                    · have hLcov := hcovL pM hpM i hfi hcase
                      cases outR with
                      | nil => cases hheadR
                      | cons r0 restR =>
                        have hr0 : r0 = pM := by simpa using hheadR
                        rw [hr0]
                        have hext := covered_extend pts tol outL
                          (restR ++ [pT0]) pM i hLcov
                        have heq : (outL ++ pM :: restR) ++ [pT0] =
                            outL ++ pM :: (restR ++ [pT0]) := by simp
                        rw [heq]
                        exact hext
                    · have hmile : mi ≤ i := by omega
                      have hRcov := hcovR pT0 hgt i hmile hit
                      have hpre := covered_prepend pts tol outL
                        (outR ++ [pT0]) i hRcov
                      have heq : (outL ++ outR) ++ [pT0] =
                          outL ++ (outR ++ [pT0]) := by
                        simp [List.append_assoc]
                      rw [heq]
                      exact hpre

/-- C1: the deviation bound.  For every tolerance `t ≥ 0`, whenever
`approximate` returns a result, every point of the original polyline
is within `t` of the line through a pair of consecutive result points
whose original indices bracket its position (perpendicular distance
measured exactly as the source's `deviation`). -/
theorem C1_deviation_bound :
    ∀ (pts : List Point) (tol : ℚ) (fuel : ℕ) (res : List Point),
      approximate pts tol fuel = Except.ok res → 0 ≤ tol →
      ∀ i : ℤ, 0 ≤ i → i < pts.length → covered pts tol res i := by
  intro pts tol fuel res h htol i h0 hlen
  cases hd : dp_simplify pts tol fuel 0 ((pts.length : ℤ) - 1) with
  | error e =>
    simp only [approximate, hd] at h
    exact (Except.noConfusion h)
  | ok out =>
    cases hlast : pyGet pts (-1) with
    | none =>
      simp only [approximate, hd, hlast] at h
      exact (Except.noConfusion h)
    | some lastP =>
      simp only [approximate, hd, hlast, Except.ok.injEq] at h
      subst h
      have hlen0 : 0 < pts.length := by omega
      have hlast' : pyGet pts ((pts.length : ℤ) - 1) = some lastP := by
        unfold pyGet at hlast ⊢
        rw [if_pos (by omega : (0 : ℤ) ≤ (pts.length : ℤ) - 1)]
        rw [if_neg (by omega : ¬ (0 : ℤ) ≤ -1)] at hlast
        rw [if_pos (by omega : (0 : ℤ) ≤ (pts.length : ℤ) + -1)] at hlast
        have harith : ((pts.length : ℤ) - 1).toNat =
            ((pts.length : ℤ) + -1).toNat := by omega
        rw [harith]
        exact hlast
      obtain ⟨hhead, hcov⟩ :=
        dp_spec fuel pts tol 0 ((pts.length : ℤ) - 1) out hd (le_refl 0) htol
      exact hcov lastP hlast' i h0 (by omega)

/-- Witness for C1 on the specification's peak scenario
`[(0,0), (1,5), (2,0)]` with tolerance `1/2`. -/
theorem C1_deviation_bound_witness :
    covered [⟨0, 0⟩, ⟨1, 5⟩, ⟨2, 0⟩] (1/2) [⟨0, 0⟩, ⟨1, 5⟩, ⟨2, 0⟩] 1 :=
  C1_deviation_bound [⟨0, 0⟩, ⟨1, 5⟩, ⟨2, 0⟩] (1/2) 5 [⟨0, 0⟩, ⟨1, 5⟩, ⟨2, 0⟩]
    (by with_unfolding_all rfl) (by norm_num) 1 (by norm_num) (by decide)
